import Mathlib

/-!
Verification development for the picocache HTTP caching proxy
(package `picocache`, file `src/picocache.go`).

The Go source is shallowly embedded: strings become `List Char`, Go
`int64` values become `Int` (with the `int64` bounds made explicit where
the source checks them, namely in `strconv.ParseInt`), byte slices become
`List Nat`, the `sync.Map` index becomes an association list, and the
filesystem becomes an association list from path to content.  Request
handling is sequential: each modelled operation runs to completion.
-/

set_option maxHeartbeats 1000000
set_option maxRecDepth 100000

/-- Go strings are modelled as lists of characters. -/
abbrev Str := List Char

/-- Lookup in an association list keyed by strings; models `sync.Map.Load`. -/
def assocFind {α : Type} (l : List (Str × α)) (k : Str) : Option α :=
  match l with
  | [] => none
  | p :: rest => if p.1 = k then some p.2 else assocFind rest k

/-- Store in an association list; models `sync.Map.Store` (replace or add). -/
def assocStore {α : Type} (l : List (Str × α)) (k : Str) (v : α) : List (Str × α) :=
  match l with
  | [] => [(k, v)]
  | p :: rest => if p.1 = k then (k, v) :: rest else p :: assocStore rest k v

/-- Remove every binding of a key; models `sync.Map.Delete` / `os.Remove`
(map keys are unique in every reachable state, so at most one binding is
removed there). -/
def assocErase {α : Type} (l : List (Str × α)) (k : Str) : List (Str × α) :=
  l.filter (fun p => p.1 ≠ k)

/-- Decimal digit value of a character, `none` for a non-digit.  Models the
per-character step of `strconv.ParseInt` with base 10. -/
def digToNat (c : Char) : Option Nat :=
  if '0' ≤ c ∧ c ≤ '9' then some (c.toNat - 48) else none

/-- Accumulating loop over decimal digits. -/
def parseDigitsAux (s : Str) (acc : Nat) : Option Nat :=
  match s with
  | [] => some acc
  | c :: rest =>
    match digToNat c with
    | some d => parseDigitsAux rest (10 * acc + d)
    | none => none

/-- Parse a non-empty all-digit string into a natural number. -/
def parseDigits (s : Str) : Option Nat :=
  match s with
  | [] => none
  | _ => parseDigitsAux s 0

/-- Largest value of a Go `int64`. -/
def maxInt64 : Int := 2 ^ 63 - 1

/-- Smallest value of a Go `int64`. -/
def minInt64 : Int := -(2 ^ 63)

/-- Bound check of a parsed magnitude against the positive `int64` range. -/
def int64Pos (d : Option Nat) : Option Int :=
  match d with
  | some n => if (n : Int) ≤ maxInt64 then some (n : Int) else none
  | none => none

/-- Bound check of a parsed magnitude, negated, against the `int64` range. -/
def int64Neg (d : Option Nat) : Option Int :=
  match d with
  | some n => if minInt64 ≤ -(n : Int) then some (-(n : Int)) else none
  | none => none

/-- Models `strconv.ParseInt(s, 10, 64)`: an optional sign followed by one
or more decimal digits, rejected when the value falls outside `int64`. -/
def parseIntGo (s : Str) : Option Int :=
  match s with
  | [] => none
  | c :: rest =>
    if c = '+' then int64Pos (parseDigits rest)
    else if c = '-' then int64Neg (parseDigits rest)
    else int64Pos (parseDigits (c :: rest))

/-- The literal prefix `bytes=` cut by `strings.CutPrefix` in `parseRange`. -/
def bytesEq : Str := "bytes=".toList

/-- Models `strings.CutPrefix(s, pre)`: the remainder after the prefix, or
`none` when `pre` is not a prefix of `s`. -/
def cutPre (pre s : Str) : Option Str :=
  match pre, s with
  | [], s => some s
  | _ :: _, [] => none
  | p :: ps, c :: cs => if p = c then cutPre ps cs else none

/-- Models `strings.Cut(ra, "-")`: split at the first hyphen, `none` when
no hyphen occurs. -/
def cutDash (s : Str) : Option (Str × Str) :=
  match s with
  | [] => none
  | c :: rest =>
    if c = '-' then some ([], rest)
    else
      match cutDash rest with
      | some (a, b) => some (c :: a, b)
      | none => none

/-- UTF-8 encoding of one character, as Go produces for `[]byte(path)`. -/
def utf8Char (c : Char) : List Nat :=
  let n := c.toNat
  if n < 128 then [n]
  else if n < 2048 then [192 + n / 64, 128 + n % 64]
  else if n < 65536 then [224 + n / 4096, 128 + n / 64 % 64, 128 + n % 64]
  else [240 + n / 262144, 128 + n / 4096 % 64, 128 + n / 64 % 64, 128 + n % 64]

/-- The bytes of a Go string: UTF-8 encoding of its characters. -/
def strBytes (s : Str) : List Nat := s.flatMap utf8Char

/-- Truncation to a 32-bit word. -/
def w32 (n : Nat) : Nat := n % 4294967296

/-- Rotate a 32-bit word right by `k` bits. -/
def rotr (k n : Nat) : Nat := w32 (n / 2 ^ k + n * 2 ^ (32 - k))

/-- SHA-256 round constants. -/
def shaK : List Nat :=
  [1116352408, 1899447441, 3049323471, 3921009573, 961987163, 1508970993,
   2453635748, 2870763221, 3624381080, 310598401, 607225278, 1426881987,
   1925078388, 2162078206, 2614888103, 3248222580, 3835390401, 4022224774,
   264347078, 604807628, 770255983, 1249150122, 1555081692, 1996064986,
   2554220882, 2821834349, 2952996808, 3210313671, 3336571891, 3584528711,
   113926993, 338241895, 666307205, 773529912, 1294757372, 1396182291,
   1695183700, 1986661051, 2177026350, 2456956037, 2730485921, 2820302411,
   3259730800, 3345764771, 3516065817, 3600352804, 4094571909, 275423344,
   430227734, 506948616, 659060556, 883997877, 958139571, 1322822218,
   1537002063, 1747873779, 1955562222, 2024104815, 2227730452, 2361852424,
   2428436474, 2756734187, 3204031479, 3329325298]

/-- Hash state of SHA-256: eight 32-bit words. -/
structure Sha8 where
  a : Nat
  b : Nat
  c : Nat
  d : Nat
  e : Nat
  f : Nat
  g : Nat
  h : Nat
deriving Repr, DecidableEq

/-- SHA-256 initial hash value. -/
def shaH0 : Sha8 :=
  ⟨1779033703, 3144134277, 1013904242, 2773480762,
   1359893119, 2600822924, 528734635, 1541459225⟩

/-- SHA-256 message padding: a `0x80` byte, zeros to 56 mod 64, then the
bit length as eight big-endian bytes. -/
def shaPad (msg : List Nat) : List Nat :=
  let l := msg.length
  let zeros := (64 - (l + 9) % 64) % 64
  let bitLen := 8 * l
  msg ++ 128 :: List.replicate zeros 0 ++
    [bitLen / 2 ^ 56 % 256, bitLen / 2 ^ 48 % 256, bitLen / 2 ^ 40 % 256,
     bitLen / 2 ^ 32 % 256, bitLen / 2 ^ 24 % 256, bitLen / 2 ^ 16 % 256,
     bitLen / 2 ^ 8 % 256, bitLen % 256]

/-- Take `n` chunks of 64 bytes from the front of a byte list. -/
def chunksN : Nat → List Nat → List (List Nat)
  | 0, _ => []
  | n + 1, l => l.take 64 :: chunksN n (l.drop 64)

/-- Split a byte list into 64-byte chunks (the padded message length is
always a multiple of 64, so the chunk count below is exact). -/
def chunks64 (l : List Nat) : List (List Nat) := chunksN (l.length / 64) l

/-- The sixteen big-endian 32-bit words of one 64-byte chunk. -/
def words16 (chunk : List Nat) : List Nat :=
  match chunk with
  | b0 :: b1 :: b2 :: b3 :: rest =>
    (b0 * 2 ^ 24 + b1 * 2 ^ 16 + b2 * 2 ^ 8 + b3) :: words16 rest
  | _ => []

/-- One message-schedule extension word. -/
def nextW (ws : List Nat) : Nat :=
  let n := ws.length
  let x15 := ws.getD (n - 15) 0
  let x2 := ws.getD (n - 2) 0
  let s0 := (rotr 7 x15) ^^^ (rotr 18 x15) ^^^ (x15 / 2 ^ 3)
  let s1 := (rotr 17 x2) ^^^ (rotr 19 x2) ^^^ (x2 / 2 ^ 10)
  w32 (ws.getD (n - 16) 0 + s0 + ws.getD (n - 7) 0 + s1)

/-- Extend the message schedule by `k` words. -/
def extendW (ws : List Nat) : Nat → List Nat
  | 0 => ws
  | k + 1 => extendW (ws ++ [nextW ws]) k

/-- One SHA-256 compression round with schedule word `w` and constant `k`. -/
def shaRound (st : Sha8) (kw : Nat × Nat) : Sha8 :=
  let s1 := (rotr 6 st.e) ^^^ (rotr 11 st.e) ^^^ (rotr 25 st.e)
  let ch := (st.e &&& st.f) ^^^ ((4294967295 - st.e) &&& st.g)
  let t1 := w32 (st.h + s1 + ch + kw.1 + kw.2)
  let s0 := (rotr 2 st.a) ^^^ (rotr 13 st.a) ^^^ (rotr 22 st.a)
  let mj := (st.a &&& st.b) ^^^ (st.a &&& st.c) ^^^ (st.b &&& st.c)
  let t2 := w32 (s0 + mj)
  ⟨w32 (t1 + t2), st.a, st.b, st.c, w32 (st.d + t1), st.e, st.f, st.g⟩

/-- Compress one 64-byte chunk into the hash state. -/
def shaChunk (st : Sha8) (chunk : List Nat) : Sha8 :=
  let ws := extendW (words16 chunk) 48
  let r := (shaK.zip ws).foldl shaRound st
  ⟨w32 (st.a + r.a), w32 (st.b + r.b), w32 (st.c + r.c), w32 (st.d + r.d),
   w32 (st.e + r.e), w32 (st.f + r.f), w32 (st.g + r.g), w32 (st.h + r.h)⟩

/-- Big-endian bytes of one 32-bit word. -/
def wordBytes (n : Nat) : List Nat :=
  [n / 2 ^ 24 % 256, n / 2 ^ 16 % 256, n / 2 ^ 8 % 256, n % 256]

/-- Models `crypto/sha256.Sum256`: the 32-byte digest of a byte string. -/
def sha256 (msg : List Nat) : List Nat :=
  let st := (chunks64 (shaPad msg)).foldl shaChunk shaH0
  wordBytes st.a ++ wordBytes st.b ++ wordBytes st.c ++ wordBytes st.d ++
    wordBytes st.e ++ wordBytes st.f ++ wordBytes st.g ++ wordBytes st.h

/-- The source's Crockford base-32 alphabet `crockfordBase32`. -/
def crockfordBase32 : Str := "0123456789ABCDEFGHJKMNPQRSTVWXYZ".toList

/-- The eight bits of a byte, most significant first. -/
def byteBits (n : Nat) : List Bool :=
  [n / 128 % 2 = 1, n / 64 % 2 = 1, n / 32 % 2 = 1, n / 16 % 2 = 1,
   n / 8 % 2 = 1, n / 4 % 2 = 1, n / 2 % 2 = 1, n % 2 = 1]

/-- Value of the first (up to) five bits of a bit stream, the missing low
bits taken as zero; this is the zero-bit padding of base-32 encoding. -/
def val5 (bits : List Bool) : Nat :=
  16 * (if bits.getD 0 false then 1 else 0) +
  8 * (if bits.getD 1 false then 1 else 0) +
  4 * (if bits.getD 2 false then 1 else 0) +
  2 * (if bits.getD 3 false then 1 else 0) +
  (if bits.getD 4 false then 1 else 0)

/-- Emit `n` base-32 characters from a bit stream, five bits per step. -/
def b32CharsN : Nat → List Bool → Str
  | 0, _ => []
  | n + 1, bits => crockfordBase32.getD (val5 bits) '0' :: b32CharsN n (bits.drop 5)

/-- Models `b32.EncodeToString` for the unpadded Crockford encoding used by
the source: the big-endian bit stream of the bytes, in 5-bit groups, the
final group zero-padded; the unpadded output length is `ceil(8in/5)`
characters for `n` input bytes. -/
def b32Encode (bs : List Nat) : Str :=
  b32CharsN ((8 * bs.length + 4) / 5) (bs.flatMap byteBits)

/-- Models `filepath.Base`: the component after the last slash. -/
def baseName (s : Str) : Str :=
  s.foldl (fun acc c => if c = '/' then [] else acc ++ [c]) []

/-- ASCII lower-casing of one character, the fragment of Unicode simple
folding that `strings.EqualFold` applies to the ASCII ETags at hand. -/
def toLowerChar (c : Char) : Char :=
  if 'A' ≤ c ∧ c ≤ 'Z' then Char.ofNat (c.toNat + 32) else c

/-- Models `strings.EqualFold` on ASCII strings: equality up to case. -/
def equalFold (a b : Str) : Prop := a.map toLowerChar = b.map toLowerChar

instance (a b : Str) : Decidable (equalFold a b) := by
  unfold equalFold
  infer_instance

/-- Decimal digit character. -/
def digitChar (n : Nat) : Char := Char.ofNat (48 + n)

/-- Decimal rendering with a fuel argument for structural recursion; the
quotient shrinks strictly at every step, so `n + 1` fuel is ample. -/
def natDigitsFuel : Nat → Nat → Str
  | 0, _ => []
  | fuel + 1, n =>
    if n < 10 then [digitChar n]
    else natDigitsFuel fuel (n / 10) ++ [digitChar (n % 10)]

/-- Decimal rendering of a natural number, as `fmt.Sprintf` with `%d`. -/
def natDigits (n : Nat) : Str := natDigitsFuel (n + 1) n

/-- Decimal rendering of an integer, as `fmt.Sprintf` with `%d`. -/
def intToStr (n : Int) : Str :=
  if n < 0 then '-' :: natDigits (-n).toNat else natDigits n.toNat

/-- The `httpRange` struct of the source: resolved start and end offsets. -/
structure HttpRange where
  start : Int
  end_ : Int
deriving DecidableEq, Repr

/-- The final validation of `parseRange`: reject when `start >= size`,
clamp `end` to `size-1`. -/
def checkRange (r : HttpRange) (size : Int) : Option HttpRange :=
  if r.start ≥ size then none
  else some ⟨r.start, if r.end_ ≥ size then size - 1 else r.end_⟩

/-- Embedding of `parseRange(s string, size int64)` from the source: cut the
`bytes=` unit prefix, split at the first hyphen, then resolve the suffix
form `-N`, the open form `N-` or the closed form `N-M`. -/
def parseRange (s : Str) (size : Int) : Option HttpRange :=
  match cutPre bytesEq s with
  | none => none
  | some ra =>
    match cutDash ra with
    | none => none
    | some (first, last) =>
      if first = [] then
        match parseIntGo last with
        | none => none
        | some i =>
          let i := if i > size then size else i
          checkRange ⟨size - i, size - 1⟩ size
      else
        match parseIntGo first with
        | none => none
        | some i =>
          if i < 0 then none
          else
            if last = [] then checkRange ⟨i, size - 1⟩ size
            else
              match parseIntGo last with
              | none => none
              | some j => if i > j then none else checkRange ⟨i, j⟩ size

/-- A cache entry (`cacheEntry` in the source). -/
structure CEntry where
  filename : Str
  size : Int
  lastUsed : Int
deriving DecidableEq, Repr

/-- The mutable state of a `PicoCache`: the entry index, the running byte
total, the in-flight download registry and the cache-directory contents
(path to file bytes). -/
structure CacheState where
  entries : List (Str × CEntry)
  totalSize : Int
  downloading : List Str
  files : List (Str × List Nat)
deriving DecidableEq, Repr

/-- The immutable configuration of a `PicoCache`; `mimeOf` stands for the
collaborator `mime.TypeByExtension`. -/
structure Config where
  source : Str
  cacheDir : Str
  maxCacheSize : Int
  mimeOf : Str → Str

/-- An incoming HTTP request: method, URL path, query string (never read
by the cache) and the two headers the handler consults. An absent header
is the empty string, as `Header.Get` reports it. -/
structure Request where
  method : Str
  path : Str
  query : Str
  ifNoneMatch : Str
  rangeHeader : Str
deriving DecidableEq, Repr

/-- An HTTP response: status, the headers set at `WriteHeader` time and
the body bytes written. -/
structure Response where
  status : Nat
  headers : List (Str × Str)
  body : List Nat
deriving DecidableEq, Repr

/-- Observable side effects of handling one request, in order. -/
inductive Effect where
  | indexLookup
  | originFetch
  | diskOpen
deriving DecidableEq, Repr

/-- Embedding of `getCacheFilename`: join the cache directory with the
unpadded Crockford base-32 rendering of the SHA-256 of the path bytes. -/
def getCacheFilename (cfg : Config) (r : Request) : Str :=
  cfg.cacheDir ++ '/' :: b32Encode (sha256 (strBytes r.path))

/-- The ETag of a request: the base name of its cache filename, exactly as
`ServeHTTP` computes it. -/
def etagOf (cfg : Config) (r : Request) : Str := baseName (getCacheFilename cfg r)

/-- Sorting key comparison of `cleanupOldEntries`; the source comparator
returns -1 when `a.entry.lastUsed.Before(b.entry.lastUsed)` and +1
otherwise, so insertion goes strictly before later-used entries and ties
keep their snapshot order (as Go's insertion sort also leaves them). -/
def insertLU (x : Str × CEntry) : List (Str × CEntry) → List (Str × CEntry)
  | [] => [x]
  | y :: ys => if y.2.lastUsed < x.2.lastUsed then y :: insertLU x ys else x :: y :: ys

/-- The ascending-by-lastUsed sort of the eviction snapshot.  Entries with
equal `lastUsed` keep their snapshot order, as Go's insertion sort leaves
them under this comparator; the snapshot order itself is the unspecified
`sync.Map.Range` iteration order, modelled by the order of `entries`. -/
def sortLU : List (Str × CEntry) → List (Str × CEntry)
  | [] => []
  | x :: xs => insertLU x (sortLU xs)

/-- One eviction: delete the file, delete the index record, subtract the
recorded size from the running total. -/
def evictEntry (st : CacheState) (p : Str × CEntry) : CacheState :=
  { entries := assocErase st.entries p.1,
    totalSize := st.totalSize - p.2.size,
    downloading := st.downloading,
    files := assocErase st.files p.2.filename }

/-- The eviction loop of `cleanupOldEntries`: remove entries in snapshot
order, stopping once the decremented total reaches the budget. -/
def evictLoop (cfg : Config) : List (Str × CEntry) → CacheState → CacheState
  | [], st => st
  | p :: rest, st =>
    let st' := evictEntry st p
    if st'.totalSize ≤ cfg.maxCacheSize then st' else evictLoop cfg rest st'

/-- Embedding of `cleanupOldEntries` (the cleanup mutex is uncontended in
this sequential model, so `TryLock` succeeds): a pass is a no-op below the
budget, otherwise it removes entries in ascending `lastUsed` order. -/
def cleanupOldEntries (cfg : Config) (st : CacheState) : CacheState :=
  if st.totalSize < cfg.maxCacheSize then st
  else evictLoop cfg (sortLU st.entries) st

/-- The reserved in-progress suffix `.tmp`. -/
def tmpSuffix : Str := ".tmp".toList

/-- What `filepath.WalkDir` reports for one visited path. -/
structure FileInfo where
  path : Str
  isDir : Bool
  size : Int
  mtime : Int
  content : List Nat
deriving DecidableEq, Repr

/-- Embedding of the `rebuildCache` walk: directories are skipped, files
with the `.tmp` suffix are deleted, every other file becomes an entry
with its length and modification time, and the running total is the sum
of the recorded sizes.  Returns the rebuilt state and the deleted paths. -/
def rebuildScan : List FileInfo → CacheState × List Str
  | [] => (⟨[], 0, [], []⟩, [])
  | f :: rest =>
    let r := rebuildScan rest
    if f.isDir then r
    else if tmpSuffix.isSuffixOf f.path then (r.1, f.path :: r.2)
    else
      ({ entries := (f.path, ⟨f.path, f.size, f.mtime⟩) :: r.1.entries,
         totalSize := f.size + r.1.totalSize,
         downloading := [],
         files := (f.path, f.content) :: r.1.files }, r.2)

/-- What the origin and local filesystem do during one fetch attempt of
`downloadFile`: whether `http.Get` succeeds, the response status and
declared `ContentLength`, the body bytes delivered, whether `io.Copy`
reports an error, and whether `os.Create` / `os.Rename` succeed. -/
structure Attempt where
  getOk : Bool
  status : Nat
  contentLength : Int
  body : List Nat
  copyErr : Bool
  createOk : Bool
  renameOk : Bool
deriving DecidableEq, Repr

/-- Outcome of one iteration of the retry loop in `downloadFile`:
`retry` is a `continue`, `fail` an early `return nil, err`, `success`
a `return entry, nil`. -/
inductive AttemptResult where
  | retry (st : CacheState)
  | fail (st : CacheState)
  | success (e : CEntry) (st : CacheState)
deriving DecidableEq, Repr

/-- One iteration of the retry loop of `downloadFile`: transport errors
and non-200 statuses advance to the next attempt; after a successful
`os.Create` of the temp file, a copy error or a byte count differing from
`ContentLength` removes the temp file and advances; a failed rename
removes the temp file and returns the error; otherwise the temp file is
renamed to the final name, the entry is stored and the total grows. -/
def attemptStep (now : Int) (cacheFile : Str) (a : Attempt) (st : CacheState) : AttemptResult :=
  if ¬a.getOk then .retry st
  else if a.status ≠ 200 then .retry st
  else if ¬a.createOk then .fail st
  else
    let tmp := cacheFile ++ tmpSuffix
    let stc : CacheState := { st with files := assocStore st.files tmp a.body }
    if a.copyErr ∨ (a.body.length : Int) ≠ a.contentLength then
      .retry { stc with files := assocErase stc.files tmp }
    else if ¬a.renameOk then
      .fail { stc with files := assocErase stc.files tmp }
    else
      .success ⟨cacheFile, a.contentLength, now⟩
        { stc with
          files := assocStore (assocErase stc.files tmp) cacheFile a.body,
          entries := assocStore stc.entries cacheFile ⟨cacheFile, a.contentLength, now⟩,
          totalSize := stc.totalSize + a.contentLength }

/-- The fixed retry count `downloadRetries` of the source. -/
def downloadRetries : Nat := 3

/-- The retry loop of `downloadFile` for the registration owner, also
counting the `http.Get` calls made; a successful attempt triggers an
eviction pass (`go c.cleanupOldEntries()`, run to completion here). -/
def downloadGo (cfg : Config) (now : Int) (cacheFile : Str) :
    List Attempt → CacheState → Option CEntry × CacheState × Nat
  | [], st => (none, st, 0)
  | a :: rest, st =>
    match attemptStep now cacheFile a st with
    | .retry st' =>
      let r := downloadGo cfg now cacheFile rest st'
      (r.1, r.2.1, r.2.2 + 1)
    | .fail st' => (none, st', 1)
    | .success e st' => (some e, cleanupOldEntries cfg st', 1)

/-- The polling loop a waiter runs in `downloadFile` when registration
finds the key already in flight: each list element is one
`c.entries.Load` result observed before the deadline.  Returns the
outcome and whether the waiter executed `c.downloading.Delete`. -/
def waiterLoop : List (Option CEntry) → Option CEntry × Bool
  | [] => (none, false)
  | some e :: _ => (some e, true)
  | none :: rest => waiterLoop rest

/-- The nondeterministic inputs of a cache miss: the origin's behavior on
each fetch attempt, the entries a waiter observes while polling, and the
current time. -/
structure MissOracle where
  attempts : List Attempt
  polls : List (Option CEntry)
  now : Int

/-- Embedding of `downloadFile`: if the key is already registered, poll as
a waiter (deleting the marker on success, leaving it on timeout);
otherwise register, run up to `downloadRetries` attempts, and unregister
on every return path. -/
def downloadFileModel (cfg : Config) (o : MissOracle) (cacheFile : Str) (st : CacheState) :
    Option CEntry × CacheState × List Effect :=
  if cacheFile ∈ st.downloading then
    match waiterLoop o.polls with
    | (some e, _) =>
      (some e, { st with downloading := st.downloading.filter (fun k => k ≠ cacheFile) }, [])
    | (none, _) => (none, st, [])
  else
    let st0 := { st with downloading := cacheFile :: st.downloading }
    let dl := downloadGo cfg o.now cacheFile (o.attempts.take downloadRetries) st0
    (dl.1, { dl.2.1 with downloading := dl.2.1.downloading.filter (fun k => k ≠ cacheFile) },
      List.replicate dl.2.2 Effect.originFetch)

/-- Refresh of an entry's `lastUsed` after a fully successful stream. -/
def refreshLU (now : Int) (st : CacheState) (entry : CEntry) : CacheState :=
  { st with entries := st.entries.map (fun p =>
      if p.1 = entry.filename then (p.1, { p.2 with lastUsed := now }) else p) }

/-- Header names and fixed values used by `ServeHTTP`. -/
def hXCache : Str := "X-Cache".toList

/-- The `Cache-Control` header name. -/
def hCacheControl : Str := "Cache-Control".toList

/-- The `Content-Type` header name. -/
def hContentType : Str := "Content-Type".toList

/-- The `Accept-Ranges` header name. -/
def hAcceptRanges : Str := "Accept-Ranges".toList

/-- The `ETag` header name. -/
def hETag : Str := "ETag".toList

/-- The `Content-Range` header name. -/
def hContentRange : Str := "Content-Range".toList

/-- The `Content-Length` header name. -/
def hContentLength : Str := "Content-Length".toList

/-- The `Cache-Control` value with `cacheMaxAge` = 604800 rendered in. -/
def cacheControlVal : Str := "public, max-age=604800, immutable".toList

/-- Models `filepath.Ext` on the path: the suffix from the last dot of the
last path component, empty when there is none. -/
def extOf (s : Str) : Str :=
  (baseName s).foldl (fun acc c =>
    if c = '.' then ['.'] else if acc = [] then [] else acc ++ [c]) []

/-- The headers `ServeHTTP` sets before the conditional check, in order. -/
def baseHeaders (cfg : Config) (r : Request) (etag : Str) : List (Str × Str) :=
  [(hXCache, "MISS".toList), (hCacheControl, cacheControlVal),
   (hContentType, cfg.mimeOf (extOf r.path)), (hAcceptRanges, "bytes".toList),
   (hETag, etag)]

/-- The `Content-Range` value `fmt.Sprintf("bytes %d-%d/%d", ...)`. -/
def contentRangeVal (rng : HttpRange) (size : Int) : Str :=
  "bytes ".toList ++ intToStr rng.start ++ '-' :: intToStr rng.end_ ++
    '/' :: intToStr size

/-- The serving tail of `ServeHTTP` once an entry is resolved: open the
file (500 on failure), apply the Range layer (416 on a malformed or
unsatisfiable range, otherwise 206 with `Content-Range`, `Content-Length`
and the requested slice; no Range header yields the full body), and
refresh `lastUsed` after a successful stream.  `Seek` on the opened file
and the writes to the client are modelled as succeeding; the
client-disconnect classification of `writerClientError` only affects
logging and has no effect on state or cache contents. -/
def serveEntry (now : Int) (st : CacheState) (hdr : List (Str × Str)) (r : Request)
    (entry : CEntry) (effs : List Effect) : Response × CacheState × List Effect :=
  match assocFind st.files entry.filename with
  | none => (⟨500, hdr, []⟩, st, effs ++ [.diskOpen])
  | some content =>
    if r.rangeHeader ≠ [] then
      match parseRange r.rangeHeader entry.size with
      | none => (⟨416, hdr, []⟩, st, effs ++ [.diskOpen])
      | some rng =>
        let hdr2 := assocStore (assocStore hdr hContentRange (contentRangeVal rng entry.size))
          hContentLength (intToStr (rng.end_ - rng.start + 1))
        let body := (content.drop rng.start.toNat).take (rng.end_ - rng.start + 1).toNat
        (⟨206, hdr2, body⟩, refreshLU now st entry, effs ++ [.diskOpen])
    else
      (⟨200, hdr, content⟩, refreshLU now st entry, effs ++ [.diskOpen])

/-- Embedding of `ServeHTTP`: method gate, reserved-path gate, header
setup, conditional-GET short circuit, index lookup, download on miss,
then the serving tail. -/
def serveHTTP (cfg : Config) (o : MissOracle) (st : CacheState) (r : Request) :
    Response × CacheState × List Effect :=
  if r.method ≠ "GET".toList then (⟨405, [], []⟩, st, [])
  else if r.path = "/favicon.ico".toList ∨ r.path = "/".toList then (⟨404, [], []⟩, st, [])
  else
    let cacheFile := getCacheFilename cfg r
    let etag := baseName cacheFile
    let hdr := baseHeaders cfg r etag
    if r.ifNoneMatch ≠ [] ∧ equalFold r.ifNoneMatch etag then (⟨304, hdr, []⟩, st, [])
    else
      match assocFind st.entries cacheFile with
      | some entry => serveEntry o.now st (assocStore hdr hXCache "HIT".toList) r entry
          [.indexLookup]
      | none =>
        let dl := downloadFileModel cfg o cacheFile st
        match dl.1 with
        | none => (⟨500, hdr, []⟩, dl.2.1, .indexLookup :: dl.2.2)
        | some entry => serveEntry o.now dl.2.1 hdr r entry (.indexLookup :: dl.2.2)

/-- A successful download insertion as `downloadFile` performs it: store
the entry, add its size to the total, materialize the file. -/
def insertDone (st : CacheState) (key : Str) (size : Int) (now : Int)
    (body : List Nat) : CacheState :=
  { st with entries := assocStore st.entries key ⟨key, size, now⟩,
            totalSize := st.totalSize + size,
            files := assocStore st.files key body }

/-- States reachable by completed operations: a startup rebuild, then any
sequence of successful download insertions (for keys not yet present, as
only an index miss fetches) and eviction passes. -/
inductive Reachable (cfg : Config) : CacheState → Prop where
  | rebuilt (files : List FileInfo)
      (hnd : ((rebuildScan files).1.entries.map Prod.fst).Nodup) :
      Reachable cfg (rebuildScan files).1
  | insert {st : CacheState} (key : Str) (size : Int) (now : Int) (body : List Nat)
      (h : Reachable cfg st) (habs : assocFind st.entries key = none) :
      Reachable cfg (insertDone st key size now body)
  | evict {st : CacheState} (h : Reachable cfg st) :
      Reachable cfg (cleanupOldEntries cfg st)

/-- Sum of the recorded sizes of a list of entries. -/
def sumSizes (l : List (Str × CEntry)) : Int := (l.map (fun p => p.2.size)).sum

/-- Drop every pair whose key occurs in `ks`; the cumulative effect of the
`Delete`/`Remove` calls of an eviction pass. -/
def removeKeys {α : Type} (es : List (Str × α)) (ks : List Str) : List (Str × α) :=
  es.filter (fun p => p.1 ∉ ks)

/-- A sample configuration used by the concrete witnesses below. -/
def cfg0 : Config := ⟨"http://origin".toList, "/cache".toList, 100, fun _ => []⟩

/-- A configuration with a 10-byte budget, for the eviction examples. -/
def cfg10 : Config := ⟨"http://origin".toList, "/cache".toList, 10, fun _ => []⟩

/-- The empty cache state. -/
def st0 : CacheState := ⟨[], 0, [], []⟩

/-- An oracle for requests that never reach the origin. -/
def oracle0 : MissOracle := ⟨[], [], 0⟩

/-- A non-GET request. -/
def reqPost : Request := ⟨"POST".toList, "/x".toList, [], [], []⟩

/-- A GET request for the reserved root path. -/
def reqRoot : Request := ⟨"GET".toList, "/".toList, [], [], []⟩

/-- A GET request for the reserved favicon path. -/
def reqFavicon : Request := ⟨"GET".toList, "/favicon.ico".toList, [], [], []⟩

/-- The rendered ETag of the path `/a` under `cfg0`. -/
def etagA : Str := baseName (cfg0.cacheDir ++ '/' :: b32Encode (sha256 (strBytes "/a".toList)))

/-- A conditional GET for `/a` whose `If-None-Match` equals its ETag. -/
def reqCond : Request := ⟨"GET".toList, "/a".toList, [], etagA, []⟩

/-- An eviction-pass example entry of size 10 last used at time 5. -/
def entA : CEntry := ⟨"/cache/A".toList, 10, 5⟩

/-- A second entry with the same size and the same `lastUsed` as `entA`. -/
def entB : CEntry := ⟨"/cache/B".toList, 10, 5⟩

/-- Two equal-timestamp entries snapshotted in the order A, B. -/
def stAB : CacheState :=
  ⟨[("/cache/A".toList, entA), ("/cache/B".toList, entB)], 20, [], []⟩

/-- The same two entries snapshotted in the order B, A. -/
def stBA : CacheState :=
  ⟨[("/cache/B".toList, entB), ("/cache/A".toList, entA)], 20, [], []⟩

/-- Three entries of sizes 4, 5, 6 with distinct timestamps, 15 bytes in
total, for the eviction-pass witness. -/
def stXYZ : CacheState :=
  ⟨[("/cache/x".toList, ⟨"/cache/x".toList, 4, 1⟩),
    ("/cache/y".toList, ⟨"/cache/y".toList, 5, 2⟩),
    ("/cache/z".toList, ⟨"/cache/z".toList, 6, 3⟩)], 15, [], []⟩

/-- A key used in the download examples. -/
def keyK : Str := "/cache/k".toList

/-- A startup directory: one regular file and one stale `.tmp` file. -/
def demoFiles : List FileInfo :=
  [⟨"/cache/a".toList, false, 3, 1, [1, 2, 3]⟩,
   ⟨"/cache/old.tmp".toList, false, 9, 1, []⟩]

/-- The state after rebuilding from `demoFiles` and then inserting a
downloaded 2-byte entry for `/cache/b`. -/
def stDemo : CacheState :=
  insertDone (rebuildScan demoFiles).1 ("/cache/b".toList) 2 5 [7, 8]

/-- Three failing fetch attempts: a transport error, a non-200 status and
a short write (2 of 5 declared bytes). -/
def failOracle : MissOracle :=
  ⟨[⟨false, 0, 0, [], false, true, true⟩,
    ⟨true, 500, 5, [], false, true, true⟩,
    ⟨true, 200, 5, [104, 105], false, true, true⟩], [], 0⟩

/-- Three attempts that deliver a complete body but declare no content
length (`ContentLength` = -1, as for a chunked response). -/
def chunkedOracle : MissOracle :=
  ⟨[⟨true, 200, -1, [104, 105], false, true, true⟩,
    ⟨true, 200, -1, [104, 105], false, true, true⟩,
    ⟨true, 200, -1, [104, 105], false, true, true⟩], [], 0⟩

/-- A plain GET request for `/a` with no conditional or range headers. -/
def reqA : Request := ⟨"GET".toList, "/a".toList, [], [], []⟩

/-- A cached 16-byte entry used by the range-serving witness. -/
def entryF : CEntry := ⟨"/cache/f".toList, 16, 0⟩

/-- The bytes of `0123456789ABCDEF`. -/
def content16 : List Nat :=
  [48, 49, 50, 51, 52, 53, 54, 55, 56, 57, 65, 66, 67, 68, 69, 70]

/-- A state holding the 16-byte resource under `entryF`. -/
def stServe : CacheState :=
  ⟨[("/cache/f".toList, entryF)], 16, [], [("/cache/f".toList, content16)]⟩

/-- A ranged GET used by the range-serving witness. -/
def reqRange : Request := ⟨"GET".toList, "/f".toList, [], [], "bytes=0-4".toList⟩

/-- An invalid-range GET used by the 416 witness. -/
def reqBadRange : Request := ⟨"GET".toList, "/f".toList, [], [], "chars=0-5".toList⟩

/-! ### Supporting lemmas -/

theorem assocFind_eq_none {α : Type} (l : List (Str × α)) (k : Str) :
    assocFind l k = none ↔ k ∉ l.map Prod.fst := by
  induction l with
  | nil =>
    constructor
    · intro _ h
      exact (List.not_mem_nil k) h
    · intro _
      rfl
  | cons p rest ih =>
    unfold assocFind
    simp only [List.map_cons]
    by_cases h : p.1 = k
    · rw [if_pos h]
      constructor
      · intro hc
        exact Option.noConfusion hc
      · intro hk
        exact absurd (h ▸ List.mem_cons_self p.1 (rest.map Prod.fst)) hk
    · rw [if_neg h, ih]
      constructor
      · intro hk hc
        rcases List.mem_cons.mp hc with hc | hc
        · exact h hc.symm
        · exact hk hc
      · intro hk hc
        exact hk (List.mem_cons_of_mem _ hc)

theorem assocStore_absent {α : Type} (l : List (Str × α)) (k : Str) (v : α)
    (h : assocFind l k = none) : assocStore l k v = l ++ [(k, v)] := by
  induction l with
  | nil => simp [assocStore]
  | cons p rest ih =>
    by_cases hp : p.1 = k
    · simp [assocFind, hp] at h
    · simp [assocFind, hp] at h
      simp [assocStore, hp, ih h]

theorem assocFind_assocErase {α : Type} (l : List (Str × α)) (k : Str) :
    assocFind (assocErase l k) k = none := by
  rw [assocFind_eq_none]
  intro hmem
  rcases List.mem_map.mp hmem with ⟨p, hp, hk⟩
  rcases List.mem_filter.mp hp with ⟨_, hne⟩
  simp only [decide_eq_true_eq] at hne
  exact hne hk

/-! ### C5: startup rebuild -/

/-- Claim C5: the startup rebuild deletes exactly the files carrying the
reserved `.tmp` suffix, turns every remaining regular file into a cache
entry with the file length as `sizeBytes` and the modification time as
`lastUsed`, and recomputes `totalSize` as exactly the sum of the
discovered entries' sizes. -/
theorem claim_C5_rebuild (files : List FileInfo) :
    (rebuildScan files).2
      = (files.filter (fun f => !f.isDir && tmpSuffix.isSuffixOf f.path)).map FileInfo.path
    ∧ (rebuildScan files).1.entries
      = (files.filter (fun f => !f.isDir && !tmpSuffix.isSuffixOf f.path)).map
          (fun f => (f.path, (⟨f.path, f.size, f.mtime⟩ : CEntry)))
    ∧ (rebuildScan files).1.totalSize = sumSizes (rebuildScan files).1.entries := by
  induction files with
  | nil => simp [rebuildScan, sumSizes]
  | cons f rest ih =>
    obtain ⟨ih1, ih2, ih3⟩ := ih
    by_cases hd : f.isDir
    · simp [rebuildScan, hd, ih1, ih2, ih3]
    · by_cases ht : tmpSuffix.isSuffixOf f.path
      · simp [rebuildScan, hd, ht, ih1, ih2, ih3]
      · simp [rebuildScan, hd, ht, ih1, ih2, ih3, sumSizes]

/-! ### C9: method and reserved-path gates -/

/-- Claim C9: a non-GET request is answered 405 with no headers and no
body, and a GET for `/` or `/favicon.ico` is answered 404 with no body; in
both cases the state (index, total, in-flight registry, disk) is unchanged
and no index lookup, origin fetch or disk access happens. -/
theorem claim_C9_gates (cfg : Config) (o : MissOracle) (st : CacheState) (r : Request) :
    (r.method ≠ "GET".toList → serveHTTP cfg o st r = (⟨405, [], []⟩, st, []))
    ∧ (r.method = "GET".toList → r.path = "/".toList ∨ r.path = "/favicon.ico".toList →
        serveHTTP cfg o st r = (⟨404, [], []⟩, st, [])) := by
  constructor
  · intro h
    unfold serveHTTP
    rw [if_pos h]
  · intro hm hp
    unfold serveHTTP
    rw [if_neg (not_not_intro hm), if_pos hp.symm]

/-- Witness for C9 at a POST request and at the two reserved GET paths. -/
theorem claim_C9_gates_witness :
    serveHTTP cfg0 oracle0 st0 reqPost = (⟨405, [], []⟩, st0, [])
    ∧ serveHTTP cfg0 oracle0 st0 reqRoot = (⟨404, [], []⟩, st0, [])
    ∧ serveHTTP cfg0 oracle0 st0 reqFavicon = (⟨404, [], []⟩, st0, []) :=
  ⟨(claim_C9_gates cfg0 oracle0 st0 reqPost).1 (by decide),
   (claim_C9_gates cfg0 oracle0 st0 reqRoot).2 (by decide) (by decide),
   (claim_C9_gates cfg0 oracle0 st0 reqFavicon).2 (by decide) (by decide)⟩

/-! ### C3: who clears the in-flight marker -/

/-- Claim C3 is false on the code: a waiter (a caller whose registration
found the key already in flight) that observes the entry appear before its
deadline executes `c.downloading.Delete(cacheFile)` itself.  Here the
waiter for `/cache/k` removes the owner's marker from the registry. -/
theorem claim_C3_waiter_deletes_marker :
    (downloadFileModel cfg0 ⟨[], [some ⟨"/cache/k".toList, 1, 0⟩], 0⟩ ("/cache/k".toList)
        ⟨[], 0, ["/cache/k".toList], []⟩).2.1.downloading = []
    ∧ (downloadFileModel cfg0 ⟨[], [some ⟨"/cache/k".toList, 1, 0⟩], 0⟩ ("/cache/k".toList)
        ⟨[], 0, ["/cache/k".toList], []⟩).1 = some ⟨"/cache/k".toList, 1, 0⟩ := by
  constructor <;> rfl

/-! ### Key encoder lemmas (C6, C8) -/

theorem b32CharsN_length (n : Nat) (bits : List Bool) : (b32CharsN n bits).length = n := by
  induction n generalizing bits with
  | zero => rfl
  | succ n ih => simp [b32CharsN, ih]

theorem sha256_length (msg : List Nat) : (sha256 msg).length = 32 := by
  unfold sha256 wordBytes
  simp

theorem b32Encode_length (bs : List Nat) : (b32Encode bs).length = (8 * bs.length + 4) / 5 := by
  unfold b32Encode
  exact b32CharsN_length _ _

theorem val5_lt (bits : List Bool) : val5 bits < 32 := by
  unfold val5
  split_ifs <;> norm_num

theorem b32CharsN_mem (n : Nat) (bits : List Bool) (c : Char) (h : c ∈ b32CharsN n bits) :
    c ∈ crockfordBase32 := by
  induction n generalizing bits with
  | zero => exact absurd h (List.not_mem_nil c)
  | succ n ih =>
    rcases List.mem_cons.mp h with h | h
    · have hlt : val5 bits < crockfordBase32.length := val5_lt bits
      rw [h, List.getD_eq_getElem _ _ hlt]
      exact List.getElem_mem hlt
    · exact ih _ h

theorem baseName_append_slash (xs ys : Str) : baseName (xs ++ '/' :: ys) = baseName ys := by
  unfold baseName
  rw [List.foldl_append]
  simp

theorem foldl_baseName_no_slash (s : Str) (acc : Str) (h : '/' ∉ s) :
    s.foldl (fun acc c => if c = '/' then [] else acc ++ [c]) acc = acc ++ s := by
  induction s generalizing acc with
  | nil => simp
  | cons c cs ih =>
    have hc : ¬c = '/' := fun hc => h (hc ▸ List.mem_cons_self c cs)
    simp only [List.foldl_cons, if_neg hc]
    rw [ih _ (fun hm => h (List.mem_cons_of_mem _ hm))]
    simp

theorem slash_not_mem_b32 (bs : List Nat) : '/' ∉ b32Encode bs := by
  intro hmem
  have hin : '/' ∈ crockfordBase32 := b32CharsN_mem _ _ _ hmem
  revert hin
  decide

theorem etagOf_eq_b32 (cfg : Config) (r : Request) :
    etagOf cfg r = b32Encode (sha256 (strBytes r.path)) := by
  unfold etagOf getCacheFilename
  rw [baseName_append_slash]
  unfold baseName
  rw [foldl_baseName_no_slash _ _ (slash_not_mem_b32 _)]
  simp

/-! ### C8: the cache key encoder -/

/-- Claim C8: the cache key is a pure deterministic function of the URL
path alone (equal paths give equal filenames, whatever the method, query
or headers), the rendered identifier has the fixed length 52 over the
unpadded Crockford base-32 alphabet, and it is the base name of the
on-disk filename, hence serves as both filename and ETag. -/
theorem claim_C8_cache_key (cfg : Config) (r1 r2 r : Request) :
    (r1.path = r2.path → getCacheFilename cfg r1 = getCacheFilename cfg r2)
    ∧ (etagOf cfg r).length = 52
    ∧ (∀ c ∈ etagOf cfg r, c ∈ crockfordBase32)
    ∧ getCacheFilename cfg r = cfg.cacheDir ++ '/' :: etagOf cfg r := by
  refine ⟨?_, ?_, ?_, ?_⟩
  · intro hp
    unfold getCacheFilename
    rw [hp]
  · rw [etagOf_eq_b32, b32Encode_length, sha256_length]
  · intro c hc
    rw [etagOf_eq_b32] at hc
    exact b32CharsN_mem _ _ _ hc
  · rw [etagOf_eq_b32]
    rfl

/-- Witness for C8: two requests for the same path with different method,
query and headers produce the same filename, of basename length 52. -/
theorem claim_C8_cache_key_witness :
    getCacheFilename cfg0 ⟨"GET".toList, "/a".toList, "q=1".toList, [], []⟩
      = getCacheFilename cfg0 ⟨"HEAD".toList, "/a".toList, [], "x".toList, "y".toList⟩
    ∧ (etagOf cfg0 ⟨"GET".toList, "/a".toList, "q=1".toList, [], []⟩).length = 52 :=
  ⟨(claim_C8_cache_key cfg0 ⟨"GET".toList, "/a".toList, "q=1".toList, [], []⟩
      ⟨"HEAD".toList, "/a".toList, [], "x".toList, "y".toList⟩
      ⟨"GET".toList, "/a".toList, "q=1".toList, [], []⟩).1 rfl,
   (claim_C8_cache_key cfg0 ⟨"GET".toList, "/a".toList, "q=1".toList, [], []⟩
      ⟨"HEAD".toList, "/a".toList, [], "x".toList, "y".toList⟩
      ⟨"GET".toList, "/a".toList, "q=1".toList, [], []⟩).2.1⟩

/-! ### C6: conditional GET short circuit -/

/-- Claim C6: a GET whose `If-None-Match` case-insensitively equals the
ETag derived from the path is answered 304 with an empty body, before any
index lookup, origin fetch or disk read (the effect trace is empty), the
state is untouched, and the response does not depend on whether the path
is cached (the right-hand side does not mention the entries). -/
theorem claim_C6_conditional_get (cfg : Config) (o : MissOracle) (st : CacheState)
    (r : Request) (hm : r.method = "GET".toList)
    (hp : ¬(r.path = "/favicon.ico".toList ∨ r.path = "/".toList))
    (hne : r.ifNoneMatch ≠ [])
    (heq : equalFold r.ifNoneMatch (etagOf cfg r)) :
    serveHTTP cfg o st r = (⟨304, baseHeaders cfg r (etagOf cfg r), []⟩, st, []) := by
  unfold etagOf at heq ⊢
  unfold serveHTTP
  rw [if_neg (not_not_intro hm), if_neg hp, if_pos ⟨hne, heq⟩]

/-- Witness for C6 at the concrete request `reqCond`, whose
`If-None-Match` is the rendered ETag of `/a`; it is answered 304 whether
the cache is empty (`st0`) or not. -/
theorem claim_C6_conditional_get_witness :
    serveHTTP cfg0 oracle0 st0 reqCond
      = (⟨304, baseHeaders cfg0 reqCond (etagOf cfg0 reqCond), []⟩, st0, []) :=
  claim_C6_conditional_get cfg0 oracle0 st0 reqCond rfl (by decide)
    (by decide) (by rfl)

/-! ### Download coordinator lemmas (C2, C10) -/

theorem attemptStep_retry_frame (now : Int) (cf : Str) (a : Attempt) (st st' : CacheState)
    (h : attemptStep now cf a st = .retry st') :
    st'.entries = st.entries ∧ st'.totalSize = st.totalSize
    ∧ st'.downloading = st.downloading
    ∧ (assocFind st.files (cf ++ tmpSuffix) = none →
        assocFind st'.files (cf ++ tmpSuffix) = none) := by
  simp only [attemptStep] at h
  split_ifs at h <;> cases h <;>
    refine ⟨rfl, rfl, rfl, ?_⟩ <;>
    first
      | exact fun h' => h'
      | exact fun _ => assocFind_assocErase _ _

theorem attemptStep_fail_frame (now : Int) (cf : Str) (a : Attempt) (st st' : CacheState)
    (h : attemptStep now cf a st = .fail st') :
    st'.entries = st.entries ∧ st'.totalSize = st.totalSize
    ∧ st'.downloading = st.downloading
    ∧ (assocFind st.files (cf ++ tmpSuffix) = none →
        assocFind st'.files (cf ++ tmpSuffix) = none) := by
  simp only [attemptStep] at h
  split_ifs at h <;> cases h <;>
    refine ⟨rfl, rfl, rfl, ?_⟩ <;>
    first
      | exact fun h' => h'
      | exact fun _ => assocFind_assocErase _ _

theorem downloadGo_count (cfg : Config) (now : Int) (cf : Str)
    (attempts : List Attempt) (st : CacheState) :
    (downloadGo cfg now cf attempts st).2.2 ≤ attempts.length := by
  induction attempts generalizing st with
  | nil => exact Nat.le_refl 0
  | cons a rest ih =>
    cases hstep : attemptStep now cf a st with
    | retry st1 =>
      simp only [downloadGo, hstep, List.length_cons]
      exact Nat.succ_le_succ (ih st1)
    | fail st1 =>
      simp only [downloadGo, hstep, List.length_cons]
      exact Nat.succ_le_succ (Nat.zero_le _)
    | success e st1 =>
      simp only [downloadGo, hstep, List.length_cons]
      exact Nat.succ_le_succ (Nat.zero_le _)

theorem downloadGo_none_frame (cfg : Config) (now : Int) (cf : Str)
    (attempts : List Attempt) (st : CacheState)
    (h : (downloadGo cfg now cf attempts st).1 = none) :
    (downloadGo cfg now cf attempts st).2.1.entries = st.entries
    ∧ (downloadGo cfg now cf attempts st).2.1.totalSize = st.totalSize
    ∧ (downloadGo cfg now cf attempts st).2.1.downloading = st.downloading
    ∧ (assocFind st.files (cf ++ tmpSuffix) = none →
        assocFind (downloadGo cfg now cf attempts st).2.1.files (cf ++ tmpSuffix) = none) := by
  induction attempts generalizing st with
  | nil => exact ⟨rfl, rfl, rfl, fun h' => h'⟩
  | cons a rest ih =>
    cases hstep : attemptStep now cf a st with
    | retry st1 =>
      obtain ⟨hf1, hf2, hf3, hf4⟩ := attemptStep_retry_frame now cf a st st1 hstep
      simp only [downloadGo, hstep] at h ⊢
      obtain ⟨hi1, hi2, hi3, hi4⟩ := ih st1 h
      exact ⟨hi1.trans hf1, hi2.trans hf2, hi3.trans hf3, fun h' => hi4 (hf4 h')⟩
    | fail st1 =>
      obtain ⟨hf1, hf2, hf3, hf4⟩ := attemptStep_fail_frame now cf a st st1 hstep
      simp only [downloadGo, hstep] at h ⊢
      exact ⟨hf1, hf2, hf3, hf4⟩
    | success e st1 =>
      simp only [downloadGo, hstep] at h
      simp at h

theorem attemptStep_neg_cl (now : Int) (cf : Str) (a : Attempt) (st : CacheState)
    (hcl : a.contentLength = -1) (e : CEntry) (st' : CacheState) :
    attemptStep now cf a st ≠ .success e st' := by
  unfold attemptStep
  split_ifs with h1 h2 h3 h4 h5 <;> intro h <;> try exact AttemptResult.noConfusion h
  push_neg at h4
  have hlen := h4.2
  rw [hcl] at hlen
  omega

theorem downloadGo_neg_cl (cfg : Config) (now : Int) (cf : Str)
    (attempts : List Attempt) (st : CacheState)
    (hcl : ∀ a ∈ attempts, a.contentLength = -1) :
    (downloadGo cfg now cf attempts st).1 = none := by
  revert hcl
  induction attempts generalizing st with
  | nil =>
    intro _
    rfl
  | cons a rest ih =>
    intro hcl
    cases hstep : attemptStep now cf a st with
    | retry st1 =>
      simp only [downloadGo, hstep]
      exact ih st1 (fun b hb => hcl b (List.mem_cons_of_mem a hb))
    | fail st1 => simp only [downloadGo, hstep]
    | success e st1 =>
      exact absurd hstep (attemptStep_neg_cl now cf a st
        (hcl a (List.mem_cons_self a rest)) e st1)

/-! ### C2: retry bound and failure frame -/

/-- Claim C2: for any key, `downloadFile` issues at most `downloadRetries`
= 3 origin fetches; when every attempt fails it returns an error with the
index and the running total unchanged and, provided no stale temp file
pre-existed, no `.tmp` file on disk (a temp file created during a failed
attempt is always removed, stated separately for each failing attempt
shape in the last conjunct). -/
theorem claim_C2_download_retries (cfg : Config) (o : MissOracle) (now : Int)
    (cf : Str) (st : CacheState) :
    (downloadFileModel cfg o cf st).2.2.length ≤ downloadRetries
    ∧ ((downloadFileModel cfg o cf st).1 = none → cf ∉ st.downloading →
        (downloadFileModel cfg o cf st).2.1.entries = st.entries
        ∧ (downloadFileModel cfg o cf st).2.1.totalSize = st.totalSize
        ∧ (assocFind st.files (cf ++ tmpSuffix) = none →
            assocFind (downloadFileModel cfg o cf st).2.1.files (cf ++ tmpSuffix) = none))
    ∧ (∀ (a : Attempt) (s s' : CacheState), a.getOk → a.status = 200 → a.createOk →
        attemptStep now cf a s = .retry s' ∨ attemptStep now cf a s = .fail s' →
        assocFind s'.files (cf ++ tmpSuffix) = none) := by
  refine ⟨?_, ?_, ?_⟩
  · unfold downloadFileModel
    split_ifs with hin
    · cases hw : waiterLoop o.polls with
      | mk oe del =>
        cases oe <;> simp [hw]
    · simp only []
      rw [List.length_replicate]
      exact (downloadGo_count cfg o.now cf (o.attempts.take downloadRetries) _).trans
        (by simp)
  · intro hres hnin
    unfold downloadFileModel at hres ⊢
    rw [if_neg hnin] at hres ⊢
    have hgo : (downloadGo cfg o.now cf (o.attempts.take downloadRetries)
        { st with downloading := cf :: st.downloading }).1 = none := hres
    obtain ⟨h1, h2, _, h4⟩ := downloadGo_none_frame cfg o.now cf _ _ hgo
    exact ⟨h1, h2, fun habs => h4 habs⟩
  · intro a s s' hg hs hc h
    simp only [attemptStep] at h
    rw [if_neg (by simp [hg]), if_neg (by simp [hs]), if_neg (by simp [hc])] at h
    rcases h with h | h <;> split_ifs at h <;> cases h <;>
      exact assocFind_assocErase _ _

/-- Witness for C2: the three-failure oracle `failOracle` (transport
error, bad status, short write) leaves the empty state unchanged with no
temp file, after at most three fetches. -/
theorem claim_C2_download_retries_witness :
    (downloadFileModel cfg0 failOracle keyK st0).2.2.length ≤ downloadRetries
    ∧ (downloadFileModel cfg0 failOracle keyK st0).2.1.entries = st0.entries
    ∧ (downloadFileModel cfg0 failOracle keyK st0).2.1.totalSize = st0.totalSize
    ∧ assocFind (downloadFileModel cfg0 failOracle keyK st0).2.1.files
        (keyK ++ tmpSuffix) = none := by
  have h := claim_C2_download_retries cfg0 failOracle 0 keyK st0
  have h2 := h.2.1 (by decide) (by decide)
  exact ⟨h.1, h2.1, h2.2.1, h2.2.2 (by decide)⟩

/-! ### C10: responses without a declared content length -/

/-- Claim C10: when every origin response declares no content length
(`ContentLength` = -1), every attempt counts as a short write even if the
body arrived completely, so `downloadFile` fails with the index, total
and disk (no temp file) unchanged, and `ServeHTTP` answers such a miss
with a 500 and an empty body. -/
theorem claim_C10_missing_content_length (cfg : Config) (o : MissOracle)
    (st : CacheState) (r : Request)
    (hcl : ∀ a ∈ o.attempts, a.contentLength = -1) :
    (∀ cf, cf ∉ st.downloading →
        (downloadFileModel cfg o cf st).1 = none
        ∧ (downloadFileModel cfg o cf st).2.1.entries = st.entries
        ∧ (downloadFileModel cfg o cf st).2.1.totalSize = st.totalSize
        ∧ (assocFind st.files (cf ++ tmpSuffix) = none →
            assocFind (downloadFileModel cfg o cf st).2.1.files (cf ++ tmpSuffix) = none))
    ∧ (r.method = "GET".toList → ¬(r.path = "/favicon.ico".toList ∨ r.path = "/".toList) →
        r.ifNoneMatch = [] →
        assocFind st.entries (getCacheFilename cfg r) = none →
        getCacheFilename cfg r ∉ st.downloading →
        (serveHTTP cfg o st r).1.status = 500 ∧ (serveHTTP cfg o st r).1.body = []
        ∧ (serveHTTP cfg o st r).2.1.entries = st.entries) := by
  have hdl : ∀ cf, cf ∉ st.downloading →
      (downloadFileModel cfg o cf st).1 = none
      ∧ (downloadFileModel cfg o cf st).2.1.entries = st.entries
      ∧ (downloadFileModel cfg o cf st).2.1.totalSize = st.totalSize
      ∧ (assocFind st.files (cf ++ tmpSuffix) = none →
          assocFind (downloadFileModel cfg o cf st).2.1.files (cf ++ tmpSuffix) = none) := by
    intro cf hnin
    unfold downloadFileModel
    rw [if_neg hnin]
    have hgo := downloadGo_neg_cl cfg o.now cf (o.attempts.take downloadRetries)
      { st with downloading := cf :: st.downloading }
      (fun a ha => hcl a (List.mem_of_mem_take ha))
    obtain ⟨h1, h2, _, h4⟩ := downloadGo_none_frame cfg o.now cf _ _ hgo
    exact ⟨hgo, h1, h2, fun habs => h4 habs⟩
  refine ⟨hdl, ?_⟩
  intro hm hp hinm hmiss hnin
  obtain ⟨hres, hent, _, _⟩ := hdl (getCacheFilename cfg r) hnin
  unfold serveHTTP
  rw [if_neg (not_not_intro hm), if_neg hp,
    if_neg (by rw [hinm]; exact fun hc => hc.1 rfl)]
  simp only [hmiss, hres]
  exact ⟨by simp, by simp, by simpa using hent⟩

/-- Witness for C10: three chunked responses (complete 2-byte bodies,
declared length -1) for `/a` against the empty cache produce a 500 with
no body and no new entry. -/
theorem claim_C10_missing_content_length_witness :
    (serveHTTP cfg0 chunkedOracle st0 reqA).1.status = 500
    ∧ (serveHTTP cfg0 chunkedOracle st0 reqA).1.body = []
    ∧ (serveHTTP cfg0 chunkedOracle st0 reqA).2.1.entries = st0.entries := by
  have h := (claim_C10_missing_content_length cfg0 chunkedOracle st0 reqA
    (by decide)).2 rfl (by decide) rfl rfl (by simp [st0])
  exact h

/-! ### Eviction lemmas (C4, C7) -/

theorem insertLU_perm (x : Str × CEntry) (l : List (Str × CEntry)) :
    (insertLU x l).Perm (x :: l) := by
  induction l with
  | nil => exact List.Perm.refl _
  | cons y ys ih =>
    unfold insertLU
    split_ifs with h
    · exact (ih.cons y).trans (List.Perm.swap x y ys)
    · exact List.Perm.refl _

theorem sortLU_perm (l : List (Str × CEntry)) : (sortLU l).Perm l := by
  induction l with
  | nil => exact List.Perm.refl _
  | cons x xs ih => exact (insertLU_perm x (sortLU xs)).trans (ih.cons x)

theorem insertLU_sorted (x : Str × CEntry) (l : List (Str × CEntry))
    (h : List.Pairwise (fun a b => a.2.lastUsed ≤ b.2.lastUsed) l) :
    List.Pairwise (fun a b => a.2.lastUsed ≤ b.2.lastUsed) (insertLU x l) := by
  induction l with
  | nil => exact List.pairwise_singleton _ _
  | cons y ys ih =>
    rcases List.pairwise_cons.mp h with ⟨hy, hys⟩
    unfold insertLU
    split_ifs with hlt
    · refine List.pairwise_cons.mpr ⟨?_, ih hys⟩
      intro z hz
      rcases List.mem_cons.mp ((insertLU_perm x ys).mem_iff.mp hz) with hz | hz
      · rw [hz]
        exact le_of_lt hlt
      · exact hy z hz
    · refine List.pairwise_cons.mpr ⟨?_, h⟩
      intro z hz
      rcases List.mem_cons.mp hz with hz | hz
      · rw [hz]
        exact le_of_not_lt hlt
      · exact le_trans (le_of_not_lt hlt) (hy z hz)

theorem sortLU_sorted (l : List (Str × CEntry)) :
    List.Pairwise (fun a b => a.2.lastUsed ≤ b.2.lastUsed) (sortLU l) := by
  induction l with
  | nil => exact List.Pairwise.nil
  | cons x xs ih => exact insertLU_sorted x (sortLU xs) ih

theorem removeKeys_nil {α : Type} (es : List (Str × α)) : removeKeys es [] = es := by
  unfold removeKeys
  rw [List.filter_eq_self]
  intro p _
  simp

theorem assocErase_eq_removeKeys {α : Type} (es : List (Str × α)) (a : Str) :
    assocErase es a = removeKeys es [a] := by
  unfold assocErase removeKeys
  apply List.filter_congr
  intro p _
  by_cases h : p.1 = a <;> simp [h]

theorem removeKeys_erase {α : Type} (es : List (Str × α)) (a : Str) (ks : List Str) :
    removeKeys (assocErase es a) ks = removeKeys es (a :: ks) := by
  unfold removeKeys assocErase
  rw [List.filter_filter]
  apply List.filter_congr
  intro p _
  by_cases h1 : p.1 = a <;> by_cases h2 : p.1 ∈ ks <;> simp [h1, h2]

theorem sumSizes_nil : sumSizes [] = 0 := rfl

theorem sumSizes_cons (p : Str × CEntry) (l : List (Str × CEntry)) :
    sumSizes (p :: l) = p.2.size + sumSizes l := by
  unfold sumSizes
  simp

theorem sumSizes_append (l1 l2 : List (Str × CEntry)) :
    sumSizes (l1 ++ l2) = sumSizes l1 + sumSizes l2 := by
  unfold sumSizes
  simp

theorem sumSizes_perm {l1 l2 : List (Str × CEntry)} (h : l1.Perm l2) :
    sumSizes l1 = sumSizes l2 :=
  List.Perm.sum_eq (h.map (fun p => p.2.size))

theorem evictLoop_spec (cfg : Config) (l : List (Str × CEntry)) (st : CacheState) :
    ∃ k, k ≤ l.length
      ∧ (evictLoop cfg l st).entries = removeKeys st.entries ((l.take k).map Prod.fst)
      ∧ (evictLoop cfg l st).files
          = removeKeys st.files ((l.take k).map (fun p => p.2.filename))
      ∧ (evictLoop cfg l st).totalSize = st.totalSize - sumSizes (l.take k)
      ∧ (evictLoop cfg l st).downloading = st.downloading
      ∧ (∀ j, 0 < j → j < k → st.totalSize - sumSizes (l.take j) > cfg.maxCacheSize)
      ∧ ((evictLoop cfg l st).totalSize ≤ cfg.maxCacheSize ∨ k = l.length)
      ∧ (l ≠ [] → 0 < k) := by
  induction l generalizing st with
  | nil =>
    refine ⟨0, Nat.le_refl 0, ?_, ?_, ?_, rfl, ?_, Or.inr rfl, ?_⟩
    · simp [evictLoop, removeKeys_nil]
    · simp [evictLoop, removeKeys_nil]
    · simp [evictLoop, sumSizes_nil]
    · intro j hj hjk
      omega
    · intro hne
      exact absurd rfl hne
  | cons p rest ih =>
    by_cases hstop : (evictEntry st p).totalSize ≤ cfg.maxCacheSize
    · have hloop : evictLoop cfg (p :: rest) st = evictEntry st p := by
        show (if (evictEntry st p).totalSize ≤ cfg.maxCacheSize then evictEntry st p
          else evictLoop cfg rest (evictEntry st p)) = evictEntry st p
        rw [if_pos hstop]
      refine ⟨1, by simp, ?_, ?_, ?_, ?_, ?_, ?_, fun _ => Nat.one_pos⟩
      · rw [hloop]
        simp only [List.take_succ_cons, List.take_zero, List.map_cons, List.map_nil]
        exact assocErase_eq_removeKeys _ _
      · rw [hloop]
        simp only [List.take_succ_cons, List.take_zero, List.map_cons, List.map_nil]
        exact assocErase_eq_removeKeys _ _
      · rw [hloop]
        simp only [List.take_succ_cons, List.take_zero]
        rw [sumSizes_cons, sumSizes_nil]
        show st.totalSize - p.2.size = st.totalSize - (p.2.size + 0)
        ring
      · rw [hloop]
        rfl
      · intro j hj hjk
        omega
      · left
        rw [hloop]
        exact hstop
    · obtain ⟨k, hk, he, hf, ht, hd, hj, hstopd, _⟩ := ih (evictEntry st p)
      have hloop : evictLoop cfg (p :: rest) st = evictLoop cfg rest (evictEntry st p) := by
        simp only [evictLoop, if_neg hstop]
      have htake : ∀ m : Nat, (p :: rest).take (m + 1) = p :: rest.take m := by
        intro m
        simp
      refine ⟨k + 1, by simpa using Nat.succ_le_succ hk, ?_, ?_, ?_, ?_, ?_, ?_,
        fun _ => Nat.succ_pos k⟩
      · rw [hloop, he, htake k, List.map_cons]
        rw [show (evictEntry st p).entries = assocErase st.entries p.1 from rfl]
        exact removeKeys_erase _ _ _
      · rw [hloop, hf, htake k, List.map_cons]
        rw [show (evictEntry st p).files = assocErase st.files p.2.filename from rfl]
        exact removeKeys_erase _ _ _
      · rw [hloop, ht, htake k, sumSizes_cons]
        show st.totalSize - p.2.size - sumSizes (rest.take k)
          = st.totalSize - (p.2.size + sumSizes (rest.take k))
        ring
      · rw [hloop, hd]
        rfl
      · intro j hjpos hjk
        cases j with
        | zero => omega
        | succ j' =>
          rw [htake j', sumSizes_cons]
          cases Nat.eq_zero_or_pos j' with
          | inl hz =>
            rw [hz]
            rw [List.take_zero, sumSizes_nil]
            have : (evictEntry st p).totalSize = st.totalSize - p.2.size := rfl
            omega
          | inr hpos =>
            have := hj j' hpos (by omega)
            have hev : (evictEntry st p).totalSize = st.totalSize - p.2.size := rfl
            rw [hev] at this
            omega
      · rcases hstopd with hle | hke
        · left
          rw [hloop]
          exact hle
        · right
          rw [List.length_cons, hke]

/-! ### C4: the eviction pass -/

/-- Claim C4 as stated is false: the eviction pass has no deterministic
tiebreak for equal `lastUsed` timestamps.  The comparator passed to
`slices.SortFunc` returns +1 for both orders of two equal-timestamp
entries, so their relative order is whatever the snapshot
(`sync.Map.Range`) produced.  Here two states holding the same two
entries (same keys, sizes, timestamps; `Perm` of each other, same total)
are snapshotted in the two possible orders, and the pass evicts key A in
one and key B in the other, so no tiebreak determined by the entries
themselves (for example by key) is applied.  The final conjunct records
the related boundary behavior the amendment also states: at `totalSize`
exactly equal to the budget the pass is not a no-op and still removes an
entry, because the budget is checked only after each removal. -/
theorem claim_C4_counterexample :
    stAB.entries.Perm stBA.entries
    ∧ stAB.totalSize = stBA.totalSize
    ∧ entA.lastUsed = entB.lastUsed
    ∧ (cleanupOldEntries cfg10 stAB).entries = [("/cache/B".toList, entB)]
    ∧ (cleanupOldEntries cfg10 stBA).entries = [("/cache/A".toList, entA)]
    ∧ (cleanupOldEntries cfg10 ⟨[("/cache/A".toList, entA)], 10, [], []⟩).entries = [] := by
  refine ⟨by decide, rfl, rfl, by decide, by decide, by decide⟩

/-- Claim C4 amended: an eviction pass is a no-op when `totalSize` is
strictly below the budget; otherwise it sorts the snapshot ascending by
`lastUsed` — entries with equal timestamps staying in snapshot (map
iteration) order, with no further tiebreak — and removes entries strictly
in that order, deleting the file and the index record and decrementing
`totalSize` by the recorded size, checking the budget after each removal
and stopping as soon as `totalSize` ≤ budget (so a pass that runs always
removes at least one entry). -/
theorem claim_C4_amended (cfg : Config) (st : CacheState) :
    (st.totalSize < cfg.maxCacheSize → cleanupOldEntries cfg st = st)
    ∧ (sortLU st.entries).Perm st.entries
    ∧ List.Pairwise (fun a b => a.2.lastUsed ≤ b.2.lastUsed) (sortLU st.entries)
    ∧ (¬st.totalSize < cfg.maxCacheSize → ∃ k, k ≤ (sortLU st.entries).length
        ∧ (cleanupOldEntries cfg st).entries
            = removeKeys st.entries (((sortLU st.entries).take k).map Prod.fst)
        ∧ (cleanupOldEntries cfg st).files
            = removeKeys st.files (((sortLU st.entries).take k).map (fun p => p.2.filename))
        ∧ (cleanupOldEntries cfg st).totalSize
            = st.totalSize - sumSizes ((sortLU st.entries).take k)
        ∧ (∀ j, 0 < j → j < k →
            st.totalSize - sumSizes ((sortLU st.entries).take j) > cfg.maxCacheSize)
        ∧ ((cleanupOldEntries cfg st).totalSize ≤ cfg.maxCacheSize
            ∨ k = (sortLU st.entries).length)
        ∧ (st.entries ≠ [] → 0 < k)) := by
  have hsp := sortLU_perm st.entries
  refine ⟨?_, hsp, sortLU_sorted st.entries, ?_⟩
  · intro hlt
    unfold cleanupOldEntries
    rw [if_pos hlt]
  · intro hge
    have hloop : cleanupOldEntries cfg st = evictLoop cfg (sortLU st.entries) st := by
      unfold cleanupOldEntries
      rw [if_neg hge]
    obtain ⟨k, hk, he, hf, ht, _, hj, hstopd, hpos⟩ :=
      evictLoop_spec cfg (sortLU st.entries) st
    refine ⟨k, hk, ?_, ?_, ?_, hj, ?_, ?_⟩
    · rw [hloop]
      exact he
    · rw [hloop]
      exact hf
    · rw [hloop]
      exact ht
    · rw [hloop]
      exact hstopd
    · intro hne
      apply hpos
      intro hnil
      exact hne (List.Perm.eq_nil (hnil ▸ hsp).symm)

/-- Witness for C4 amended: a below-budget pass is a no-op, and an
over-budget pass on three entries of sizes 4, 5, 6 (timestamps 1, 2, 3)
with budget 10 satisfies the amended description. -/
theorem claim_C4_amended_witness :
    (cleanupOldEntries cfg10 ⟨[(keyK, ⟨keyK, 5, 1⟩)], 5, [], []⟩
      = ⟨[(keyK, ⟨keyK, 5, 1⟩)], 5, [], []⟩)
    ∧ (∃ k, k ≤ (sortLU stXYZ.entries).length
        ∧ (cleanupOldEntries cfg10 stXYZ).entries
            = removeKeys stXYZ.entries (((sortLU stXYZ.entries).take k).map Prod.fst)
        ∧ (cleanupOldEntries cfg10 stXYZ).files
            = removeKeys stXYZ.files (((sortLU stXYZ.entries).take k).map (fun p => p.2.filename))
        ∧ (cleanupOldEntries cfg10 stXYZ).totalSize
            = stXYZ.totalSize - sumSizes ((sortLU stXYZ.entries).take k)
        ∧ (∀ j, 0 < j → j < k →
            stXYZ.totalSize - sumSizes ((sortLU stXYZ.entries).take j) > cfg10.maxCacheSize)
        ∧ ((cleanupOldEntries cfg10 stXYZ).totalSize ≤ cfg10.maxCacheSize
            ∨ k = (sortLU stXYZ.entries).length)
        ∧ (stXYZ.entries ≠ [] → 0 < k)) :=
  ⟨(claim_C4_amended cfg10 ⟨[(keyK, ⟨keyK, 5, 1⟩)], 5, [], []⟩).1 (by decide),
   (claim_C4_amended cfg10 stXYZ).2.2.2 (by decide)⟩

/-! ### C7: the running-total invariant -/

theorem rebuildScan_total (files : List FileInfo) :
    (rebuildScan files).1.totalSize = sumSizes (rebuildScan files).1.entries := by
  induction files with
  | nil => rfl
  | cons f rest ih =>
    unfold rebuildScan
    by_cases hd : f.isDir = true
    · rw [if_pos hd]
      exact ih
    · rw [if_neg hd]
      by_cases ht : tmpSuffix.isSuffixOf f.path = true
      · rw [if_pos ht]
        exact ih
      · rw [if_neg ht]
        show f.size + (rebuildScan rest).1.totalSize
          = sumSizes ((f.path, ⟨f.path, f.size, f.mtime⟩) :: (rebuildScan rest).1.entries)
        rw [sumSizes_cons, ih]

theorem removeKeys_nodup {α : Type} (l : List (Str × α)) (ks : List Str)
    (hnd : (l.map Prod.fst).Nodup) : ((removeKeys l ks).map Prod.fst).Nodup :=
  hnd.sublist (List.Sublist.map _ (List.filter_sublist _))

theorem removeKeys_append_keys {α : Type} (t d : List (Str × α)) (ks : List Str)
    (h1 : ∀ p ∈ t, p.1 ∈ ks) (h2 : ∀ p ∈ d, p.1 ∉ ks) :
    removeKeys (t ++ d) ks = d := by
  unfold removeKeys
  rw [List.filter_append]
  rw [List.filter_eq_nil_iff.mpr (fun p hp => by
    simp only [decide_eq_true_eq, not_not]
    exact h1 p hp)]
  rw [List.filter_eq_self.mpr (fun p hp => by
    simp only [decide_eq_true_eq]
    exact h2 p hp)]
  rfl

theorem removeKeys_take_sum (l : List (Str × CEntry)) (k : Nat)
    (hnd : (l.map Prod.fst).Nodup) :
    sumSizes (removeKeys l (((sortLU l).take k).map Prod.fst))
      = sumSizes l - sumSizes ((sortLU l).take k) := by
  have hsp : (sortLU l).Perm l := sortLU_perm l
  have hnds : ((sortLU l).map Prod.fst).Nodup := ((hsp.map Prod.fst).nodup_iff).mpr hnd
  have hperm : (removeKeys l (((sortLU l).take k).map Prod.fst)).Perm
      (removeKeys (sortLU l) (((sortLU l).take k).map Prod.fst)) :=
    List.Perm.filter _ hsp.symm
  have hmapsplit : (sortLU l).map Prod.fst
      = ((sortLU l).take k).map Prod.fst ++ ((sortLU l).drop k).map Prod.fst := by
    rw [← List.map_append, List.take_append_drop]
  have hdisj : List.Disjoint (((sortLU l).take k).map Prod.fst)
      (((sortLU l).drop k).map Prod.fst) :=
    (List.nodup_append.mp (hmapsplit ▸ hnds)).2.2
  have h3 : removeKeys (sortLU l) (((sortLU l).take k).map Prod.fst)
      = (sortLU l).drop k := by
    have hk := removeKeys_append_keys ((sortLU l).take k) ((sortLU l).drop k)
      (((sortLU l).take k).map Prod.fst)
      (fun p hp => List.mem_map_of_mem Prod.fst hp)
      (fun p hp hmem => hdisj hmem (List.mem_map_of_mem Prod.fst hp))
    rwa [List.take_append_drop] at hk
  have h4 : sumSizes ((sortLU l).take k) + sumSizes ((sortLU l).drop k)
      = sumSizes (sortLU l) := by
    rw [← sumSizes_append, List.take_append_drop]
  have h5 : sumSizes (sortLU l) = sumSizes l := sumSizes_perm hsp
  rw [sumSizes_perm hperm, h3]
  omega

theorem cleanup_inv (cfg : Config) (st : CacheState)
    (hsum : st.totalSize = sumSizes st.entries)
    (hnd : (st.entries.map Prod.fst).Nodup) :
    (cleanupOldEntries cfg st).totalSize = sumSizes (cleanupOldEntries cfg st).entries
    ∧ ((cleanupOldEntries cfg st).entries.map Prod.fst).Nodup := by
  by_cases hlt : st.totalSize < cfg.maxCacheSize
  · unfold cleanupOldEntries
    rw [if_pos hlt]
    exact ⟨hsum, hnd⟩
  · have hloop : cleanupOldEntries cfg st = evictLoop cfg (sortLU st.entries) st := by
      unfold cleanupOldEntries
      rw [if_neg hlt]
    obtain ⟨k, _, he, _, ht, _, _, _, _⟩ := evictLoop_spec cfg (sortLU st.entries) st
    rw [hloop, he, ht, removeKeys_take_sum st.entries k hnd, hsum]
    exact ⟨rfl, removeKeys_nodup _ _ hnd⟩

theorem reachable_inv (cfg : Config) (st : CacheState) (h : Reachable cfg st) :
    st.totalSize = sumSizes st.entries ∧ (st.entries.map Prod.fst).Nodup := by
  induction h with
  | rebuilt files hnd => exact ⟨rebuildScan_total files, hnd⟩
  | @insert stp key size now body h habs ih =>
    obtain ⟨hsum, hnd⟩ := ih
    have hst := assocStore_absent _ key (⟨key, size, now⟩ : CEntry) habs
    constructor
    · show stp.totalSize + size
        = sumSizes (assocStore stp.entries key ⟨key, size, now⟩)
      rw [hst, sumSizes_append, sumSizes_cons, sumSizes_nil, hsum]
      ring
    · show ((assocStore stp.entries key ⟨key, size, now⟩).map Prod.fst).Nodup
      rw [hst, List.map_append]
      rw [List.nodup_append]
      refine ⟨hnd, List.nodup_singleton key, ?_⟩
      intro x hx hx1
      rcases List.mem_singleton.mp hx1 with rfl
      exact (assocFind_eq_none stp.entries _).mp habs hx
  | evict h ih => exact cleanup_inv cfg _ ih.1 ih.2

/-- Claim C7: in every state reachable by completed operations (startup
rebuild, successful download insertions for keys absent from the index,
eviction passes), `totalSize` equals the sum of the recorded sizes of the
entries in the index. -/
theorem claim_C7_total_size (cfg : Config) (st : CacheState) (h : Reachable cfg st) :
    st.totalSize = sumSizes st.entries :=
  (reachable_inv cfg st h).1

/-- Witness for C7: rebuild from a directory with one regular file and a
stale `.tmp` file, then insert a downloaded entry; the invariant holds in
the resulting concrete state `stDemo`. -/
theorem claim_C7_total_size_witness :
    Reachable cfg0 stDemo ∧ stDemo.totalSize = sumSizes stDemo.entries := by
  have hr : Reachable cfg0 stDemo :=
    Reachable.insert ("/cache/b".toList) 2 5 [7, 8]
      (Reachable.rebuilt demoFiles (by decide)) (by decide)
  exact ⟨hr, claim_C7_total_size cfg0 stDemo hr⟩

/-! ### Range parser lemmas (C1) -/

theorem cutPre_append (p s : Str) : cutPre p (p ++ s) = some s := by
  induction p with
  | nil => rfl
  | cons c cs ih =>
    show cutPre (c :: cs) (c :: (cs ++ s)) = some s
    simp only [cutPre]
    rw [if_pos trivial]
    exact ih

theorem cutPre_some (p : Str) : ∀ s r, cutPre p s = some r → s = p ++ r := by
  induction p with
  | nil =>
    intro s r h
    exact Option.some.inj h
  | cons c cs ih =>
    intro s r h
    cases s with
    | nil => exact Option.noConfusion h
    | cons d ds =>
      simp only [cutPre] at h
      split_ifs at h with hcd
      subst hcd
      rw [List.cons_append, ih ds r h]

theorem cutPre_none (p s : Str) (h : ∀ t, s ≠ p ++ t) : cutPre p s = none := by
  cases hc : cutPre p s with
  | none => rfl
  | some r => exact absurd (cutPre_some p s r hc) (h r)

theorem cutDash_append (a b : Str) (ha : '-' ∉ a) :
    cutDash (a ++ '-' :: b) = some (a, b) := by
  induction a with
  | nil =>
    show cutDash ('-' :: b) = some ([], b)
    simp only [cutDash]
    rw [if_pos trivial]
  | cons c cs ih =>
    have hc : ¬c = '-' := fun hc => ha (hc ▸ List.mem_cons_self c cs)
    show cutDash (c :: (cs ++ '-' :: b)) = some (c :: cs, b)
    simp only [cutDash]
    rw [if_neg hc, ih (fun hm => ha (List.mem_cons_of_mem _ hm))]

theorem cutDash_none (s : Str) (h : '-' ∉ s) : cutDash s = none := by
  induction s with
  | nil => rfl
  | cons c cs ih =>
    have hc : ¬c = '-' := fun hc => h (hc ▸ List.mem_cons_self c cs)
    simp only [cutDash]
    rw [if_neg hc, ih (fun hm => h (List.mem_cons_of_mem _ hm))]

theorem cutDash_some (s : Str) :
    ∀ a b, cutDash s = some (a, b) → s = a ++ '-' :: b ∧ '-' ∉ a := by
  induction s with
  | nil =>
    intro a b h
    exact Option.noConfusion h
  | cons c cs ih =>
    intro a b h
    simp only [cutDash] at h
    split_ifs at h with hc
    · injection h with hpair
      injection hpair with ha hb
      subst hc
      rw [← ha, ← hb]
      exact ⟨rfl, List.not_mem_nil '-'⟩
    · cases hcd : cutDash cs with
      | none =>
        rw [hcd] at h
        exact Option.noConfusion h
      | some p =>
        rw [hcd] at h
        obtain ⟨a', b'⟩ := p
        injection h with hpair
        injection hpair with ha hb
        obtain ⟨hs, hna⟩ := ih a' b' hcd
        rw [← ha, ← hb, hs]
        refine ⟨rfl, ?_⟩
        intro hm
        rcases List.mem_cons.mp hm with hm | hm
        · exact hc hm.symm
        · exact hna hm

theorem parseIntGo_nil : parseIntGo [] = none := rfl

theorem parseIntGo_some_ne_nil (s : Str) (i : Int) (h : parseIntGo s = some i) :
    s ≠ [] := by
  intro hnil
  rw [hnil, parseIntGo_nil] at h
  exact Option.noConfusion h

theorem int64Pos_nonneg (d : Option Nat) (i : Int) (h : int64Pos d = some i) : 0 ≤ i := by
  cases d with
  | none => exact Option.noConfusion h
  | some n =>
    simp only [int64Pos] at h
    split_ifs at h
    rw [← Option.some.inj h]
    exact Int.natCast_nonneg n

theorem parseIntGo_nonneg (s : Str) (i : Int) (hnd : '-' ∉ s)
    (h : parseIntGo s = some i) : 0 ≤ i := by
  cases s with
  | nil => exact Option.noConfusion h
  | cons c rest =>
    have hc : ¬c = '-' := fun hc => hnd (hc ▸ List.mem_cons_self c rest)
    simp only [parseIntGo] at h
    by_cases hp : c = '+'
    · rw [if_pos hp] at h
      exact int64Pos_nonneg _ _ h
    · rw [if_neg hp, if_neg hc] at h
      exact int64Pos_nonneg _ _ h

theorem parseRange_not_bytes (s : Str) (size : Int) (h : ∀ t, s ≠ bytesEq ++ t) :
    parseRange s size = none := by
  simp only [parseRange, cutPre_none bytesEq s h]

theorem parseRange_no_hyphen (ra : Str) (size : Int) (h : '-' ∉ ra) :
    parseRange (bytesEq ++ ra) size = none := by
  simp only [parseRange, cutPre_append, cutDash_none ra h]

theorem parseRange_firstLast (a b : Str) (size i j : Int) (ha : '-' ∉ a)
    (hpa : parseIntGo a = some i) (hpb : parseIntGo b = some j) :
    parseRange (bytesEq ++ (a ++ '-' :: b)) size
      = if i > j ∨ i ≥ size then none else some ⟨i, min j (size - 1)⟩ := by
  have hane : a ≠ [] := parseIntGo_some_ne_nil a i hpa
  have hbne : b ≠ [] := parseIntGo_some_ne_nil b j hpb
  have hi0 : 0 ≤ i := parseIntGo_nonneg a i ha hpa
  simp only [parseRange, cutPre_append, cutDash_append a b ha, hpa, hpb]
  rw [if_neg hane, if_neg (not_lt.mpr hi0), if_neg hbne]
  by_cases hij : i > j
  · rw [if_pos hij, if_pos (Or.inl hij)]
  · by_cases his : i ≥ size
    · rw [if_neg hij, if_pos (Or.inr his)]
      simp only [checkRange]
      rw [if_pos his]
    · rw [if_neg hij, if_neg (fun hor => hor.elim hij his)]
      simp only [checkRange]
      rw [if_neg his]
      have hmin : (if j ≥ size then size - 1 else j) = min j (size - 1) := by
        split_ifs with hj <;> omega
      rw [hmin]

theorem parseRange_first_bad (a b : Str) (size : Int) (ha : '-' ∉ a) (hane : a ≠ [])
    (hpa : parseIntGo a = none) :
    parseRange (bytesEq ++ (a ++ '-' :: b)) size = none := by
  simp only [parseRange, cutPre_append, cutDash_append a b ha, hpa]
  rw [if_neg hane]

theorem parseRange_last_bad (a b : Str) (size i : Int) (ha : '-' ∉ a)
    (hpa : parseIntGo a = some i) (hbne : b ≠ []) (hpb : parseIntGo b = none) :
    parseRange (bytesEq ++ (a ++ '-' :: b)) size = none := by
  have hane : a ≠ [] := parseIntGo_some_ne_nil a i hpa
  have hi0 : 0 ≤ i := parseIntGo_nonneg a i ha hpa
  simp only [parseRange, cutPre_append, cutDash_append a b ha, hpa, hpb]
  rw [if_neg hane, if_neg (not_lt.mpr hi0), if_neg hbne]

theorem parseRange_open (a : Str) (size i : Int) (ha : '-' ∉ a)
    (hpa : parseIntGo a = some i) :
    parseRange (bytesEq ++ (a ++ ['-'])) size
      = if i ≥ size then none else some ⟨i, size - 1⟩ := by
  have hane : a ≠ [] := parseIntGo_some_ne_nil a i hpa
  have hi0 : 0 ≤ i := parseIntGo_nonneg a i ha hpa
  have hcd : cutDash (a ++ '-' :: ([] : Str)) = some (a, []) := cutDash_append a [] ha
  simp only [parseRange, cutPre_append, hcd, hpa]
  rw [if_neg hane, if_neg (not_lt.mpr hi0), if_pos trivial]
  simp only [checkRange]
  by_cases his : i ≥ size
  · rw [if_pos his, if_pos his]
  · rw [if_neg his, if_neg his, if_neg (by omega : ¬size - 1 ≥ size)]

theorem parseRange_suffix (b : Str) (size i : Int) (hpb : parseIntGo b = some i) :
    parseRange (bytesEq ++ ('-' :: b)) size
      = if size - min i size ≥ size then none
        else some ⟨size - min i size, size - 1⟩ := by
  have hcd : cutDash ('-' :: b) = some ([], b) := by
    simp only [cutDash]
    rw [if_pos trivial]
  simp only [parseRange, cutPre_append, hcd, hpb]
  rw [if_pos trivial]
  have hmin : (if i > size then size else i) = min i size := by
    split_ifs with h <;> omega
  rw [hmin]
  simp only [checkRange]
  by_cases hs : size - min i size ≥ size
  · rw [if_pos hs, if_pos hs]
  · rw [if_neg hs, if_neg hs, if_neg (by omega : ¬size - 1 ≥ size)]

theorem parseRange_sound (s : Str) (size : Int) (r : HttpRange)
    (h : parseRange s size = some r) :
    0 ≤ r.start ∧ r.start ≤ r.end_ ∧ r.end_ < size := by
  obtain ⟨rs, re⟩ := r
  show 0 ≤ rs ∧ rs ≤ re ∧ re < size
  simp only [parseRange] at h
  repeat' split at h
  all_goals try exact Option.noConfusion h
  all_goals simp only [checkRange] at h
  all_goals split_ifs at h <;> try exact Option.noConfusion h
  all_goals
    injection h with hr
    injection hr with h1 h2
    constructor
    · omega
    constructor
    · omega
    · omega

theorem parseRange_shape (s : Str) (size : Int) (r : HttpRange)
    (h : parseRange s size = some r) :
    ∃ a b, s = bytesEq ++ (a ++ '-' :: b) ∧ '-' ∉ a := by
  simp only [parseRange] at h
  split at h
  · exact Option.noConfusion h
  · rename_i ra hcp
    split at h
    · exact Option.noConfusion h
    · rename_i p first last hcd
      obtain ⟨hs, hna⟩ := cutDash_some ra first last hcd
      refine ⟨first, last, ?_, hna⟩
      rw [cutPre_some bytesEq s ra hcp, hs]

theorem serveEntry_206 (now : Int) (st : CacheState) (hdr : List (Str × Str))
    (r : Request) (entry : CEntry) (content : List Nat) (effs : List Effect)
    (rng : HttpRange)
    (hfile : assocFind st.files entry.filename = some content)
    (hrng : r.rangeHeader ≠ [])
    (hpr : parseRange r.rangeHeader entry.size = some rng) :
    serveEntry now st hdr r entry effs
      = (⟨206, assocStore (assocStore hdr hContentRange (contentRangeVal rng entry.size))
            hContentLength (intToStr (rng.end_ - rng.start + 1)),
          (content.drop rng.start.toNat).take (rng.end_ - rng.start + 1).toNat⟩,
        refreshLU now st entry, effs ++ [.diskOpen]) := by
  simp only [serveEntry, hfile, hpr]
  rw [if_pos hrng]

theorem serveEntry_416 (now : Int) (st : CacheState) (hdr : List (Str × Str))
    (r : Request) (entry : CEntry) (content : List Nat) (effs : List Effect)
    (hfile : assocFind st.files entry.filename = some content)
    (hrng : r.rangeHeader ≠ [])
    (hpr : parseRange r.rangeHeader entry.size = none) :
    serveEntry now st hdr r entry effs = (⟨416, hdr, []⟩, st, effs ++ [.diskOpen]) := by
  simp only [serveEntry, hfile, hpr]
  rw [if_pos hrng]

theorem range_slice_length (content : List Nat) (size : Int) (rng : HttpRange)
    (hlen : (content.length : Int) = size)
    (h0 : 0 ≤ rng.start) (h1 : rng.start ≤ rng.end_) (h2 : rng.end_ < size) :
    ((content.drop rng.start.toNat).take (rng.end_ - rng.start + 1).toNat).length
      = (rng.end_ - rng.start + 1).toNat := by
  rw [List.length_take, List.length_drop]
  omega

/-! ### C1: Range header parsing and serving -/

/-- Claim C1: the range parser accepts only `bytes=first-last`,
`bytes=first-` and `bytes=-suffixLength`.  In order, the conjuncts state:
any other unit (no `bytes=` prefix) is rejected; a spec without a hyphen
is rejected; `first-last` resolves to start=first, end=last clamped to
size-1, failing when first>last or first≥size; an unparsable first is
rejected; an unparsable last is rejected; `first-` resolves to
start=first, end=size-1, failing when first≥size; `-suffixLength`
resolves to start=size-min(suffixLength,size), end=size-1, failing when
that start ≥ size; every accepted range satisfies 0 ≤ start ≤ end < size;
every accepted string has the shape `bytes=` a `-` b; a resolved range is
served 206 with `Content-Range: bytes {start}-{end}/{size}` and the body
slice from offset start; that slice holds exactly end-start+1 bytes; a
rejected range is answered 416 with no body bytes; and the five spec test
vectors for the 16-byte resource hold. -/
theorem claim_C1_range_requests :
    (∀ (s : Str) (size : Int), (∀ t, s ≠ bytesEq ++ t) → parseRange s size = none)
    ∧ (∀ (ra : Str) (size : Int), '-' ∉ ra → parseRange (bytesEq ++ ra) size = none)
    ∧ (∀ (a b : Str) (size i j : Int), '-' ∉ a → parseIntGo a = some i →
        parseIntGo b = some j →
        parseRange (bytesEq ++ (a ++ '-' :: b)) size
          = if i > j ∨ i ≥ size then none else some ⟨i, min j (size - 1)⟩)
    ∧ (∀ (a b : Str) (size : Int), '-' ∉ a → a ≠ [] → parseIntGo a = none →
        parseRange (bytesEq ++ (a ++ '-' :: b)) size = none)
    ∧ (∀ (a b : Str) (size i : Int), '-' ∉ a → parseIntGo a = some i → b ≠ [] →
        parseIntGo b = none → parseRange (bytesEq ++ (a ++ '-' :: b)) size = none)
    ∧ (∀ (a : Str) (size i : Int), '-' ∉ a → parseIntGo a = some i →
        parseRange (bytesEq ++ (a ++ ['-'])) size
          = if i ≥ size then none else some ⟨i, size - 1⟩)
    ∧ (∀ (b : Str) (size i : Int), parseIntGo b = some i →
        parseRange (bytesEq ++ ('-' :: b)) size
          = if size - min i size ≥ size then none
            else some ⟨size - min i size, size - 1⟩)
    ∧ (∀ (s : Str) (size : Int) (r : HttpRange), parseRange s size = some r →
        0 ≤ r.start ∧ r.start ≤ r.end_ ∧ r.end_ < size)
    ∧ (∀ (s : Str) (size : Int) (r : HttpRange), parseRange s size = some r →
        ∃ a b, s = bytesEq ++ (a ++ '-' :: b) ∧ '-' ∉ a)
    ∧ (∀ (now : Int) (st : CacheState) (hdr : List (Str × Str)) (r : Request)
        (entry : CEntry) (content : List Nat) (effs : List Effect) (rng : HttpRange),
        assocFind st.files entry.filename = some content →
        r.rangeHeader ≠ [] →
        parseRange r.rangeHeader entry.size = some rng →
        serveEntry now st hdr r entry effs
          = (⟨206, assocStore (assocStore hdr hContentRange
                (contentRangeVal rng entry.size)) hContentLength
                (intToStr (rng.end_ - rng.start + 1)),
              (content.drop rng.start.toNat).take (rng.end_ - rng.start + 1).toNat⟩,
            refreshLU now st entry, effs ++ [.diskOpen]))
    ∧ (∀ (now : Int) (st : CacheState) (hdr : List (Str × Str)) (r : Request)
        (entry : CEntry) (content : List Nat) (effs : List Effect),
        assocFind st.files entry.filename = some content →
        r.rangeHeader ≠ [] →
        parseRange r.rangeHeader entry.size = none →
        serveEntry now st hdr r entry effs = (⟨416, hdr, []⟩, st, effs ++ [.diskOpen]))
    ∧ (∀ (content : List Nat) (size : Int) (rng : HttpRange),
        (content.length : Int) = size →
        0 ≤ rng.start → rng.start ≤ rng.end_ → rng.end_ < size →
        ((content.drop rng.start.toNat).take (rng.end_ - rng.start + 1).toNat).length
          = (rng.end_ - rng.start + 1).toNat)
    ∧ (parseRange "bytes=0-4".toList 16 = some ⟨0, 4⟩
        ∧ parseRange "bytes=10-".toList 16 = some ⟨10, 15⟩
        ∧ parseRange "bytes=-5".toList 16 = some ⟨11, 15⟩
        ∧ parseRange "chars=0-5".toList 16 = none
        ∧ parseRange "bytes=100-200".toList 16 = none) :=
  ⟨parseRange_not_bytes, parseRange_no_hyphen, parseRange_firstLast,
   parseRange_first_bad, parseRange_last_bad, parseRange_open, parseRange_suffix,
   parseRange_sound, parseRange_shape, serveEntry_206, serveEntry_416,
   range_slice_length, by decide⟩

/-- Witness for C1: the closed form of `bytes=10-20` against size 100,
the 206 serving of `bytes=0-4` on the cached 16-byte resource, and the
416 answer to `chars=0-5` on the same resource. -/
theorem claim_C1_range_requests_witness :
    (parseRange (bytesEq ++ (['1', '0'] ++ '-' :: ['2', '0'])) 100
      = if (10 : Int) > 20 ∨ (10 : Int) ≥ 100 then none
        else some ⟨10, min 20 (100 - 1)⟩)
    ∧ serveEntry 9 stServe [] reqRange entryF []
        = (⟨206, assocStore (assocStore [] hContentRange
              (contentRangeVal ⟨0, 4⟩ entryF.size)) hContentLength
              (intToStr (((⟨0, 4⟩ : HttpRange).end_ - (⟨0, 4⟩ : HttpRange).start + 1))),
            (content16.drop (⟨0, 4⟩ : HttpRange).start.toNat).take
              ((⟨0, 4⟩ : HttpRange).end_ - (⟨0, 4⟩ : HttpRange).start + 1).toNat⟩,
          refreshLU 9 stServe entryF, [] ++ [Effect.diskOpen])
    ∧ serveEntry 9 stServe [] reqBadRange entryF []
        = (⟨416, [], []⟩, stServe, [] ++ [Effect.diskOpen]) :=
  ⟨claim_C1_range_requests.2.2.1 ['1', '0'] ['2', '0'] 100 10 20
      (by decide) (by decide) (by decide),
   claim_C1_range_requests.2.2.2.2.2.2.2.2.2.1 9 stServe [] reqRange entryF content16
      [] ⟨0, 4⟩ (by decide) (by decide) (by decide),
   claim_C1_range_requests.2.2.2.2.2.2.2.2.2.2.1 9 stServe [] reqBadRange entryF
      content16 [] (by decide) (by decide) (by decide)⟩
